import Mathlib

/-!
Formal model of the Notelytic note dashboard (src/unnamed/part_000 and
src/components/app-page.tsx; the two files contain the same state logic).

Conventions of the embedding:
* JavaScript `Date` values are modelled by their millisecond timestamps as `Int`
  (`new Date()` / `Date.now()` become an explicit `now : Int` parameter;
  `getTime()` is the identity; the JSON round trip `Date → ISO string → new Date`
  preserves the timestamp and is therefore the identity here).
* Strings are Lean `String`s; `toLowerCase`, `trim`, `includes` and
  `localeCompare` are modelled over the underlying character lists.
* React state (`notes`, `categories`, `newNote`, `editingNote`, toasts, …) and
  the two IndexedDB object stores are gathered in one record `AppState`; each
  event handler becomes a pure function `AppState → … → AppState`.
* Toast calls append the toast message to `AppState.toasts`.
* The optional `image` field is modelled as a `String` (absent = `""`).
-/

/-- Whitespace recognised by JavaScript `String.prototype.trim`
(tab, LF, VT, FF, CR, space, NBSP, ZWNBSP). -/
def isJsSpace (c : Char) : Bool :=
  c = ' ' || c = '\t' || c = '\n' || c = '\r' ||
  c = Char.ofNat 0x0B || c = Char.ofNat 0x0C ||
  c = Char.ofNat 0xA0 || c = Char.ofNat 0xFEFF

/-- Model of JavaScript `s.trim()`: drop leading and trailing whitespace. -/
def jsTrim (s : String) : String :=
  String.mk (((s.data.dropWhile isJsSpace).reverse.dropWhile isJsSpace).reverse)

/-- Model of JavaScript `s.toLowerCase()` as a character list. -/
def lowerChars (s : String) : List Char :=
  s.data.map Char.toLower

/-- Model of JavaScript `hay.toLowerCase().includes(pat.toLowerCase())`:
the lower-cased pattern is a contiguous substring of the lower-cased haystack. -/
def containsCI (hay pat : String) : Bool :=
  decide (lowerChars pat <:+: lowerChars hay)

/-- Model of JavaScript `a.localeCompare(b)` (under the code-point collation):
`-1` / `0` / `1` lexicographic comparison of character lists. -/
def strCmp : List Char → List Char → Int
  | [], [] => 0
  | [], _ :: _ => -1
  | _ :: _, [] => 1
  | a :: as, b :: bs => if a < b then -1 else if b < a then 1 else strCmp as bs

/-- The `Note` record (src/unnamed/part_000 lines 25-37). -/
structure Note where
  id : String
  title : String
  content : String
  category : String
  color : String
  createdAt : Int
  updatedAt : Int
  image : String
  isPinned : Bool
  isArchived : Bool
  tags : List String
deriving DecidableEq

/-- The `NewNote` draft, `Omit<Note, 'id' | 'createdAt' | 'updatedAt' |
'isPinned' | 'isArchived'>` (line 39). -/
structure NewNote where
  title : String
  content : String
  category : String
  color : String
  image : String
  tags : List String
deriving DecidableEq

/-- The `Category` record (lines 41-44). -/
structure Category where
  name : String
  color : String
deriving DecidableEq

/-- Modelled from the spec: the browser IndexedDB object store behind
`saveToIndexedDB` (lines 101-111).  The store implementation itself is browser
code, not part of src/; the spec describes it as a local persistent store with
"asynchronous transactional put/get/delete", object-store-per-entity, keyed by
`id` (notes) resp. `name` (categories), and `put` is an upsert: a record whose
key is already present is replaced, otherwise the record is inserted. -/
def saveToIndexedDB {α : Type} (key : α → String) (store : List α) (v : α) : List α :=
  if store.any (fun r => key r == key v) then
    store.map (fun r => if key r = key v then v else r)
  else
    store ++ [v]

/-- Modelled from the spec: `getAllFromIndexedDB` (lines 113-123) returns every
record of the object store. -/
def getAllFromIndexedDB {α : Type} (store : List α) : List α := store

/-- Modelled from the spec: `deleteFromIndexedDB` (lines 125-135) removes the
record with the given key, if any. -/
def deleteFromIndexedDB {α : Type} (key : α → String) (store : List α) (k : String) : List α :=
  store.filter (fun r => key r ≠ k)

/-- The component state of `NotelyticsNoteDashboard` (lines 137-155) together
with the two IndexedDB object stores. -/
structure AppState where
  notes : List Note
  categories : List Category
  dbNotes : List Note
  dbCategories : List Category
  newNote : NewNote
  editingNote : Option Note
  isAddingNote : Bool
  toasts : List String
deriving DecidableEq

/-- The `sortBy` selector (line 145). -/
inductive SortBy
  | updatedAt
  | createdAt
  | title
deriving DecidableEq

/-- The comparator passed to `.sort` in `filteredNotes` (lines 331-338):
pinned first, then by title (`localeCompare`) or by descending timestamp. -/
def noteCmp (sortBy : SortBy) (a b : Note) : Int :=
  if a.isPinned && !b.isPinned then -1
  else if !a.isPinned && b.isPinned then 1
  else match sortBy with
    | .title => strCmp a.title.data b.title.data
    | .updatedAt => b.updatedAt - a.updatedAt
    | .createdAt => b.createdAt - a.createdAt

/-- `noteCmp` as a binary `Bool` relation (`comparator ≤ 0`). -/
def noteLe (sortBy : SortBy) (a b : Note) : Bool :=
  decide (noteCmp sortBy a b ≤ 0)

/-- Insertion of an element into a sorted list, for the model of
`Array.prototype.sort`. -/
def insertLe {α : Type} (le : α → α → Bool) (x : α) : List α → List α
  | [] => [x]
  | y :: ys => if le x y then x :: y :: ys else y :: insertLe le x ys

/-- Model of JavaScript `Array.prototype.sort` with a consistent comparator:
a stable sort producing a list sorted by `le`.  (Insertion sort; ECMAScript
only requires some stable comparison sort.) -/
def sortLe {α : Type} (le : α → α → Bool) : List α → List α
  | [] => []
  | x :: xs => insertLe le x (sortLe le xs)

/-- The filter predicate of `filteredNotes` (lines 324-330). -/
def noteMatches (selectedCategory searchTerm : String) (showArchived : Bool) (n : Note) : Bool :=
  (selectedCategory == "All" || n.category == selectedCategory) &&
  (containsCI n.title searchTerm || containsCI n.content searchTerm ||
    n.tags.any (fun tag => containsCI tag searchTerm)) &&
  (if showArchived then n.isArchived else !n.isArchived)

/-- `filteredNotes` (lines 322-339): filter, then sort with the comparator
(`le` is "comparator result ≤ 0"). -/
def filteredNotes (notes : List Note) (selectedCategory searchTerm : String)
    (showArchived : Bool) (sortBy : SortBy) : List Note :=
  sortLe (noteLe sortBy) (notes.filter (noteMatches selectedCategory searchTerm showArchived))

/-- The note built by `addNote` (lines 343-354): spread of the draft, fresh id
`Date.now().toString()`, category colour defaulted with `|| '#CCCCCC'`
(which also replaces an empty colour string, since `''` is falsy). -/
def mkNewNote (st : AppState) (now : Int) : Note :=
  { id := toString now
    title := st.newNote.title
    content := st.newNote.content
    category := st.newNote.category
    color := match st.categories.find? (fun cat => cat.name == st.newNote.category) with
      | some cat => if cat.color = "" then "#CCCCCC" else cat.color
      | none => "#CCCCCC"
    createdAt := now
    updatedAt := now
    image := st.newNote.image
    isPinned := false
    isArchived := false
    tags := st.newNote.tags }

/-- `addNote` (lines 341-363).  The guard `newNote.title && newNote.content &&
newNote.category` is JavaScript string truthiness: all three non-empty. -/
def addNote (st : AppState) (now : Int) : AppState :=
  if st.newNote.title ≠ "" ∧ st.newNote.content ≠ "" ∧ st.newNote.category ≠ "" then
    let n := mkNewNote st now
    { st with
      dbNotes := saveToIndexedDB (fun m => m.id) st.dbNotes n
      notes := st.notes ++ [n]
      newNote := { title := "", content := "", category := "", color := "", image := "", tags := [] }
      isAddingNote := false
      toasts := st.toasts ++ ["Note added successfully! 🎉"] }
  else
    { st with toasts := st.toasts ++ ["Please fill in all required fields 🙏"] }

/-- `updateNote` (lines 365-377): replace the note with the editing draft,
stamping `updatedAt` with the current time. -/
def updateNote (st : AppState) (now : Int) : AppState :=
  match st.editingNote with
  | some e =>
    let updated : Note := { e with updatedAt := now }
    { st with
      dbNotes := saveToIndexedDB (fun m => m.id) st.dbNotes updated
      notes := st.notes.map (fun n => if n.id = e.id then updated else n)
      editingNote := none
      toasts := st.toasts ++ ["Note updated successfully! 📝"] }
  | none => st

/-- `deleteNote` (lines 379-383). -/
def deleteNote (st : AppState) (id : String) : AppState :=
  { st with
    dbNotes := deleteFromIndexedDB (fun m => m.id) st.dbNotes id
    notes := st.notes.filter (fun n => n.id ≠ id)
    toasts := st.toasts ++ ["Note deleted 🗑️"] }

/-- `togglePinNote` (lines 385-404): refuse to pin a fourth note, otherwise
flip `isPinned` of the found note. -/
def togglePinNote (st : AppState) (id : String) : AppState :=
  match st.notes.find? (fun n => n.id == id) with
  | none => st
  | some n =>
    if n.isPinned = false ∧ 3 ≤ (st.notes.filter (fun m => m.isPinned)).length then
      { st with toasts := st.toasts ++ ["You can only pin up to 3 notes 📌"] }
    else
      let updated : Note := { n with isPinned := !n.isPinned }
      { st with
        dbNotes := saveToIndexedDB (fun m => m.id) st.dbNotes updated
        notes := st.notes.map (fun m => if m.id = id then updated else m)
        toasts := st.toasts ++
          [if updated.isPinned then "Note pinned 📌" else "Note unpinned 📌❌"] }

/-- `toggleArchiveNote` (lines 406-420). -/
def toggleArchiveNote (st : AppState) (id : String) : AppState :=
  match st.notes.find? (fun n => n.id == id) with
  | none => st
  | some n =>
    let updated : Note := { n with isArchived := !n.isArchived }
    { st with
      dbNotes := saveToIndexedDB (fun m => m.id) st.dbNotes updated
      notes := st.notes.map (fun m => if m.id = id then updated else m),
      toasts := st.toasts ++
        [if updated.isArchived then "Note archived 📂" else "Note unarchived 📂"] }

/-- `deleteCategory` (lines 451-458): delete from the category store and list,
reassign the notes of the category to `'Uncategorized'` (state only). -/
def deleteCategory (st : AppState) (categoryName : String) : AppState :=
  { st with
    dbCategories := deleteFromIndexedDB (fun c => c.name) st.dbCategories categoryName
    categories := st.categories.filter (fun cat => cat.name ≠ categoryName)
    notes := st.notes.map (fun note =>
      if note.category = categoryName then { note with category := "Uncategorized" } else note)
    toasts := st.toasts ++ ["Category deleted successfully! 🗑️"] }

/-- The JSON payload written by `exportNotes` and read by `importNotes`. -/
structure ExportData where
  notes : List Note
  categories : List Category
deriving DecidableEq

/-- `exportNotes` (lines 460-476): dump both object stores. -/
def exportNotes (st : AppState) : ExportData :=
  { notes := getAllFromIndexedDB st.dbNotes
    categories := getAllFromIndexedDB st.dbCategories }

/-- The date revival `{...note, createdAt: new Date(note.createdAt), ...}`
performed by `importNotes`; the identity on integer timestamps. -/
def reviveNote (n : Note) : Note :=
  { n with createdAt := n.createdAt, updatedAt := n.updatedAt }

/-- `importNotes` (lines 478-515), on an already-parsed well-formed payload:
upsert every imported note (dates revived) and category into the stores, then
replace both pieces of React state with the store contents. -/
def importNotes (st : AppState) (data : ExportData) : AppState :=
  let dbN := data.notes.foldl (fun acc n => saveToIndexedDB (fun m => m.id) acc (reviveNote n)) st.dbNotes
  let dbC := data.categories.foldl (fun acc c => saveToIndexedDB (fun c2 => c2.name) acc c) st.dbCategories
  { st with
    dbNotes := dbN
    dbCategories := dbC
    notes := (getAllFromIndexedDB dbN).map reviveNote
    categories := getAllFromIndexedDB dbC
    toasts := st.toasts ++ ["Notes and categories imported successfully! 📥"] }

/-- The tag normalisation of `handleTagChange` (line 531):
`tags.filter(tag => tag.trim() !== '').map(tag => tag.trim())`. -/
def normalizeTags (tags : List String) : List String :=
  (tags.filter (fun tag => jsTrim tag ≠ "")).map jsTrim

/-- `handleTagChange` (lines 530-545): write the normalised tags to the note
with the given id, or to the new-note draft when no id is given. -/
def handleTagChange (st : AppState) (tags : List String) (noteId : Option String) : AppState :=
  let updatedTags := normalizeTags tags
  match noteId with
  | some id =>
    match st.notes.find? (fun n => n.id == id) with
    | some n =>
      let updated : Note := { n with tags := updatedTags }
      { st with
        dbNotes := saveToIndexedDB (fun m => m.id) st.dbNotes updated
        notes := st.notes.map (fun m => if m.id = id then updated else m)
        toasts := st.toasts ++ ["Tags updated successfully! 🏷️"] }
    | none => st
  | none => { st with newNote := { st.newNote with tags := updatedTags } }

/-- The `allTags` effect (lines 223-228): insertion-ordered duplicate-free
union of the tags of all notes (`Set` insertion keeps the first occurrence). -/
def addTag (acc : List String) (t : String) : List String :=
  if t ∈ acc then acc else acc ++ [t]

/-- `Array.from(tags)` for the `Set` built by the `allTags` effect. -/
def allTags (notes : List Note) : List String :=
  notes.foldl (fun acc n => n.tags.foldl addTag acc) []

/-- `notes.filter(note => note.isPinned).length` (line 388). -/
def pinnedCount (notes : List Note) : Nat :=
  (notes.filter (fun n => n.isPinned)).length

/-- The per-key order of the claim about sorting: ascending lexicographic
titles, or descending timestamps. -/
def secLe (sortBy : SortBy) (a b : Note) : Prop :=
  match sortBy with
  | .title => strCmp a.title.data b.title.data ≤ 0
  | .updatedAt => b.updatedAt ≤ a.updatedAt
  | .createdAt => b.createdAt ≤ a.createdAt

/-! ### Generic lemmas about the sort model -/

theorem mem_insertLe {α : Type} (le : α → α → Bool) (x : α) (l : List α) (a : α) :
    a ∈ insertLe le x l ↔ a = x ∨ a ∈ l := by
  induction l with
  | nil => simp [insertLe]
  | cons y ys ih =>
    simp only [insertLe]
    split
    · simp [List.mem_cons]
    · simp only [List.mem_cons, ih]
      tauto

theorem mem_sortLe {α : Type} (le : α → α → Bool) (l : List α) (a : α) :
    a ∈ sortLe le l ↔ a ∈ l := by
  induction l with
  | nil => simp [sortLe]
  | cons x xs ih => simp [sortLe, mem_insertLe, ih]

theorem pairwise_insertLe {α : Type} (le : α → α → Bool)
    (htrans : ∀ a b c, le a b = true → le b c = true → le a c = true)
    (htot : ∀ a b, le a b = true ∨ le b a = true)
    (x : α) (l : List α) (h : l.Pairwise (fun a b => le a b = true)) :
    (insertLe le x l).Pairwise (fun a b => le a b = true) := by
  induction l with
  | nil => simp [insertLe]
  | cons y ys ih =>
    rw [List.pairwise_cons] at h
    obtain ⟨hy, hys⟩ := h
    by_cases hxy : le x y = true
    · simp only [insertLe, if_pos hxy]
      refine List.Pairwise.cons ?_ (List.Pairwise.cons hy hys)
      intro b hb
      rcases List.mem_cons.1 hb with rfl | hb
      · exact hxy
      · exact htrans x y b hxy (hy b hb)
    · simp only [insertLe, if_neg hxy]
      refine List.Pairwise.cons ?_ (ih hys)
      intro b hb
      rcases (mem_insertLe le x ys b).1 hb with rfl | hb
      · rcases htot b y with h1 | h1
        · exact absurd h1 hxy
        · exact h1
      · exact hy b hb

theorem pairwise_sortLe {α : Type} (le : α → α → Bool)
    (htrans : ∀ a b c, le a b = true → le b c = true → le a c = true)
    (htot : ∀ a b, le a b = true ∨ le b a = true)
    (l : List α) : (sortLe le l).Pairwise (fun a b => le a b = true) := by
  induction l with
  | nil => simp [sortLe]
  | cons x xs ih => exact pairwise_insertLe le htrans htot x (sortLe le xs) ih

/-! ### Lemmas about the comparator -/

theorem strCmp_total (s : List Char) : ∀ t, strCmp s t ≤ 0 ∨ strCmp t s ≤ 0 := by
  induction s with
  | nil => intro t; cases t <;> simp [strCmp]
  | cons a as ih =>
    intro t
    cases t with
    | nil => right; simp [strCmp]
    | cons b bs =>
      by_cases hab : a < b
      · left; simp [strCmp, hab]
      · by_cases hba : b < a
        · right; simp [strCmp, hba]
        · have hab2 : a = b := le_antisymm (not_lt.1 hba) (not_lt.1 hab)
          subst hab2
          simpa [strCmp, lt_irrefl] using ih bs

theorem strCmp_trans (s : List Char) :
    ∀ t u, strCmp s t ≤ 0 → strCmp t u ≤ 0 → strCmp s u ≤ 0 := by
  induction s with
  | nil => intro t u _ _; cases u <;> simp [strCmp]
  | cons a as ih =>
    intro t u h1 h2
    cases t with
    | nil => simp [strCmp] at h1
    | cons b bs =>
      cases u with
      | nil => simp [strCmp] at h2
      | cons c cs =>
        by_cases hab : a < b
        · by_cases hbc : b < c
          · simp [strCmp, lt_trans hab hbc]
          · by_cases hcb : c < b
            · simp [strCmp, hbc, hcb] at h2
            · have hbc2 : b = c := le_antisymm (not_lt.1 hcb) (not_lt.1 hbc)
              subst hbc2
              simp [strCmp, hab]
        · by_cases hba : b < a
          · simp [strCmp, hab, hba] at h1
          · have hab2 : a = b := le_antisymm (not_lt.1 hba) (not_lt.1 hab)
            subst hab2
            by_cases hbc : a < c
            · simp [strCmp, hbc]
            · by_cases hcb : c < a
              · simp [strCmp, hbc, hcb] at h2
              · have hbc2 : a = c := le_antisymm (not_lt.1 hcb) (not_lt.1 hbc)
                subst hbc2
                simp only [strCmp, lt_irrefl, if_neg, if_false] at h1 h2 ⊢
                exact ih bs cs h1 h2

theorem secLe_trans (sortBy : SortBy) (a b c : Note) :
    secLe sortBy a b → secLe sortBy b c → secLe sortBy a c := by
  cases sortBy <;> simp only [secLe] <;> intro h1 h2
  · omega
  · omega
  · exact strCmp_trans a.title.data b.title.data c.title.data h1 h2

theorem secLe_total (sortBy : SortBy) (a b : Note) : secLe sortBy a b ∨ secLe sortBy b a := by
  cases sortBy <;> simp only [secLe]
  · omega
  · omega
  · exact strCmp_total a.title.data b.title.data

theorem noteLe_iff (sortBy : SortBy) (a b : Note) :
    noteLe sortBy a b = true ↔
      ((a.isPinned = true ∧ b.isPinned = false) ∨
       (a.isPinned = b.isPinned ∧ secLe sortBy a b)) := by
  unfold noteLe noteCmp
  cases ha : a.isPinned <;> cases hb : b.isPinned <;>
    cases sortBy <;> simp [secLe, decide_eq_true_iff, sub_nonpos]

theorem noteLe_total (sortBy : SortBy) (a b : Note) :
    noteLe sortBy a b = true ∨ noteLe sortBy b a = true := by
  rw [noteLe_iff, noteLe_iff]
  cases ha : a.isPinned <;> cases hb : b.isPinned
  · rcases secLe_total sortBy a b with h | h
    · exact Or.inl (Or.inr ⟨rfl, h⟩)
    · exact Or.inr (Or.inr ⟨rfl, h⟩)
  · exact Or.inr (Or.inl ⟨rfl, rfl⟩)
  · exact Or.inl (Or.inl ⟨rfl, rfl⟩)
  · rcases secLe_total sortBy a b with h | h
    · exact Or.inl (Or.inr ⟨rfl, h⟩)
    · exact Or.inr (Or.inr ⟨rfl, h⟩)

theorem noteLe_trans (sortBy : SortBy) (a b c : Note) :
    noteLe sortBy a b = true → noteLe sortBy b c = true → noteLe sortBy a c = true := by
  rw [noteLe_iff, noteLe_iff, noteLe_iff]
  rintro (⟨ha, hb⟩ | ⟨hab, hs1⟩) (⟨hb2, hc⟩ | ⟨hbc, hs2⟩)
  · rw [hb] at hb2; exact absurd hb2 (by simp)
  · exact Or.inl ⟨ha, hbc ▸ hb⟩
  · exact Or.inl ⟨hab ▸ hb2, hc⟩
  · exact Or.inr ⟨hab.trans hbc, secLe_trans sortBy a b c hs1 hs2⟩

theorem noteMatches_iff (selectedCategory searchTerm : String) (showArchived : Bool) (n : Note) :
    noteMatches selectedCategory searchTerm showArchived n = true ↔
      ((selectedCategory = "All" ∨ n.category = selectedCategory) ∧
       (lowerChars searchTerm <:+: lowerChars n.title ∨
        lowerChars searchTerm <:+: lowerChars n.content ∨
        ∃ t ∈ n.tags, lowerChars searchTerm <:+: lowerChars t) ∧
       n.isArchived = showArchived) := by
  unfold noteMatches containsCI
  cases showArchived <;>
    simp [List.any_eq_true, decide_eq_true_iff, Bool.and_eq_true, Bool.or_eq_true, beq_iff_eq] <;>
    tauto

/-- C2: for every notes list, selected category, search term and
`showArchived` flag, `filteredNotes` contains exactly the notes of the list
that (i) are of the selected category or the category is `'All'`, (ii) contain
the search term case-insensitively as a substring of the title, the content or
some tag, and (iii) have `isArchived` equal to the `showArchived` flag. -/
theorem filteredNotes_mem_spec (notes : List Note) (selectedCategory searchTerm : String)
    (showArchived : Bool) (sortBy : SortBy) (n : Note) :
    n ∈ filteredNotes notes selectedCategory searchTerm showArchived sortBy ↔
      (n ∈ notes ∧
        (selectedCategory = "All" ∨ n.category = selectedCategory) ∧
        (lowerChars searchTerm <:+: lowerChars n.title ∨
         lowerChars searchTerm <:+: lowerChars n.content ∨
         ∃ t ∈ n.tags, lowerChars searchTerm <:+: lowerChars t) ∧
        n.isArchived = showArchived) := by
  unfold filteredNotes
  rw [mem_sortLe, List.mem_filter, noteMatches_iff]

/-- C3: in the `filteredNotes` output every pinned note precedes every unpinned
note, and among notes of equal pin status the notes are in ascending
lexicographic order of title when `sortBy` is `'title'`, and in descending
order of the respective timestamp when `sortBy` is `'updatedAt'` or
`'createdAt'` (`secLe`). -/
theorem filteredNotes_sorted_spec (notes : List Note) (selectedCategory searchTerm : String)
    (showArchived : Bool) (sortBy : SortBy) :
    (filteredNotes notes selectedCategory searchTerm showArchived sortBy).Pairwise
      (fun a b => (b.isPinned = true → a.isPinned = true) ∧
                  (a.isPinned = b.isPinned → secLe sortBy a b)) := by
  have h := pairwise_sortLe (noteLe sortBy) (noteLe_trans sortBy) (noteLe_total sortBy)
    (notes.filter (noteMatches selectedCategory searchTerm showArchived))
  refine h.imp ?_
  intro a b hab
  rcases (noteLe_iff sortBy a b).1 hab with ⟨ha, hb⟩ | ⟨hab2, hs⟩
  · constructor
    · intro hb2; rw [hb2] at hb; exact absurd hb (by simp)
    · intro heq; rw [ha, hb] at heq; exact absurd heq (by simp)
  · exact ⟨fun hb2 => hab2.trans hb2, fun _ => hs⟩

/-! ### Lemmas about the storage model -/

theorem mem_saveToIndexedDB {α : Type} (key : α → String) (s : List α) (v r : α) :
    r ∈ saveToIndexedDB key s v ↔ (r = v ∨ (r ∈ s ∧ key r ≠ key v)) := by
  unfold saveToIndexedDB
  by_cases h : s.any (fun m => key m == key v) = true
  · rw [if_pos h]
    constructor
    · intro hr
      rcases List.mem_map.1 hr with ⟨m, hm, hfm⟩
      by_cases hk : key m = key v
      · left; rw [if_pos hk] at hfm; exact hfm.symm
      · right; rw [if_neg hk] at hfm; rw [← hfm]; exact ⟨hm, hk⟩
    · rintro (rfl | ⟨hr, hk⟩)
      · rcases List.any_eq_true.1 h with ⟨m, hm, hkm⟩
        have hkm2 : key m = key r := by simpa using hkm
        exact List.mem_map.2 ⟨m, hm, by rw [if_pos hkm2]⟩
      · exact List.mem_map.2 ⟨r, hr, by rw [if_neg hk]⟩
  · rw [if_neg h]
    have hnone : ∀ m ∈ s, key m ≠ key v := by
      intro m hm hk
      exact h (List.any_eq_true.2 ⟨m, hm, by simpa using hk⟩)
    simp only [List.mem_append, List.mem_singleton]
    constructor
    · rintro (hr | rfl)
      · exact Or.inr ⟨hr, hnone r hr⟩
      · exact Or.inl rfl
    · rintro (rfl | ⟨hr, _⟩)
      · exact Or.inr rfl
      · exact Or.inl hr

theorem keys_nodup_saveToIndexedDB {α : Type} (key : α → String) (s : List α) (v : α)
    (hN : ((s.map key)).Nodup) : (((saveToIndexedDB key s v).map key)).Nodup := by
  unfold saveToIndexedDB
  by_cases h : s.any (fun m => key m == key v) = true
  · rw [if_pos h, List.map_map]
    have heq : (key ∘ fun r => if key r = key v then v else r) = key := by
      funext r
      by_cases hk : key r = key v <;> simp [hk]
    rw [heq]; exact hN
  · rw [if_neg h, List.map_append, List.map_singleton]
    have hout : key v ∉ s.map key := by
      intro hmem
      rcases List.mem_map.1 hmem with ⟨m, hm, hkm⟩
      exact h (List.any_eq_true.2 ⟨m, hm, by simpa using hkm⟩)
    exact List.nodup_append.2 ⟨hN, List.nodup_singleton _, by
      intro x hx hx2
      rw [List.mem_singleton] at hx2
      exact hout (hx2 ▸ hx)⟩

theorem keys_nodup_deleteFromIndexedDB {α : Type} (key : α → String) (s : List α) (k : String)
    (hN : ((s.map key)).Nodup) : (((deleteFromIndexedDB key s k).map key)).Nodup := by
  unfold deleteFromIndexedDB
  exact ((List.filter_sublist s).map key).nodup hN

/-- C6 (spec-modelled): the storage layer implements upsert, list-all and
delete over stores keyed by record key: the at-most-one-record-per-key
invariant is preserved by `saveToIndexedDB` and `deleteFromIndexedDB`; after a
`saveToIndexedDB`, `getAllFromIndexedDB` returns the saved record exactly once
and every other record (those with a different key) unchanged; and
`deleteFromIndexedDB` removes exactly the record with the given key. -/
theorem store_ops_spec {α : Type} [DecidableEq α] (key : α → String)
    (s : List α) (v : α) (k : String) (hN : ((s.map key)).Nodup) :
    (((saveToIndexedDB key s v).map key).Nodup ∧
     ((deleteFromIndexedDB key s k).map key).Nodup) ∧
    List.count v (getAllFromIndexedDB (saveToIndexedDB key s v)) = 1 ∧
    (∀ r, r ∈ getAllFromIndexedDB (saveToIndexedDB key s v) ↔
      (r = v ∨ (r ∈ s ∧ key r ≠ key v))) ∧
    (∀ r, r ∈ getAllFromIndexedDB (deleteFromIndexedDB key s k) ↔ (r ∈ s ∧ key r ≠ k)) := by
  refine ⟨⟨keys_nodup_saveToIndexedDB key s v hN, keys_nodup_deleteFromIndexedDB key s k hN⟩,
    ?_, ?_, ?_⟩
  · have hnodup : (saveToIndexedDB key s v).Nodup :=
      (keys_nodup_saveToIndexedDB key s v hN).of_map
    have hmem : v ∈ saveToIndexedDB key s v := (mem_saveToIndexedDB key s v v).2 (Or.inl rfl)
    exact List.count_eq_one_of_mem hnodup hmem
  · intro r; exact mem_saveToIndexedDB key s v r
  · intro r
    unfold getAllFromIndexedDB deleteFromIndexedDB
    rw [List.mem_filter]
    simp

theorem store_ops_spec_witness :
    let nA : Note := { id := "1", title := "a", content := "", category := "", color := "",
                       createdAt := 0, updatedAt := 0, image := "", isPinned := false,
                       isArchived := false, tags := [] }
    let nB : Note := { nA with id := "2", title := "b" }
    let nA2 : Note := { nA with title := "a2" }
    ((((saveToIndexedDB (fun n => n.id) [nA, nB] nA2).map (fun n => n.id)).Nodup ∧
      ((deleteFromIndexedDB (fun n => n.id) [nA, nB] "2").map (fun n => n.id)).Nodup) ∧
     List.count nA2 (getAllFromIndexedDB (saveToIndexedDB (fun n => n.id) [nA, nB] nA2)) = 1 ∧
     (∀ r, r ∈ getAllFromIndexedDB (saveToIndexedDB (fun n => n.id) [nA, nB] nA2) ↔
       (r = nA2 ∨ (r ∈ [nA, nB] ∧ r.id ≠ nA2.id))) ∧
     (∀ r, r ∈ getAllFromIndexedDB (deleteFromIndexedDB (fun n => n.id) [nA, nB] "2") ↔
       (r ∈ [nA, nB] ∧ r.id ≠ "2"))) := by
  intro nA nB nA2
  exact store_ops_spec (fun n => n.id) [nA, nB] nA2 "2" (by decide)

/-! ### Lemmas about the tag aggregation -/

theorem mem_addTag (acc : List String) (t a : String) :
    a ∈ addTag acc t ↔ (a ∈ acc ∨ a = t) := by
  unfold addTag
  by_cases h : t ∈ acc
  · rw [if_pos h]
    constructor
    · exact Or.inl
    · rintro (ha | rfl)
      · exact ha
      · exact h
  · rw [if_neg h]
    simp

theorem nodup_addTag (acc : List String) (t : String) (h : acc.Nodup) :
    (addTag acc t).Nodup := by
  unfold addTag
  by_cases ht : t ∈ acc
  · rw [if_pos ht]; exact h
  · rw [if_neg ht]
    exact List.nodup_append.2 ⟨h, List.nodup_singleton t, by
      intro x hx hx2
      rw [List.mem_singleton] at hx2
      exact ht (hx2 ▸ hx)⟩

theorem mem_foldl_addTag (l : List String) (acc : List String) (a : String) :
    a ∈ l.foldl addTag acc ↔ (a ∈ acc ∨ a ∈ l) := by
  induction l generalizing acc with
  | nil => simp
  | cons x xs ih =>
    rw [List.foldl_cons, ih, mem_addTag]
    simp only [List.mem_cons]
    tauto

theorem nodup_foldl_addTag (l : List String) (acc : List String) (h : acc.Nodup) :
    (l.foldl addTag acc).Nodup := by
  induction l generalizing acc with
  | nil => exact h
  | cons x xs ih => exact ih (addTag acc x) (nodup_addTag acc x h)

theorem mem_foldl_tags (notes : List Note) (acc : List String) (a : String) :
    a ∈ notes.foldl (fun acc n => n.tags.foldl addTag acc) acc ↔
      (a ∈ acc ∨ ∃ n ∈ notes, a ∈ n.tags) := by
  induction notes generalizing acc with
  | nil => simp
  | cons m ms ih =>
    rw [List.foldl_cons, ih, mem_foldl_addTag]
    simp only [List.mem_cons]
    constructor
    · rintro ((ha | hm) | ⟨n, hn, ht⟩)
      · exact Or.inl ha
      · exact Or.inr ⟨m, Or.inl rfl, hm⟩
      · exact Or.inr ⟨n, Or.inr hn, ht⟩
    · rintro (ha | ⟨n, (rfl | hn), ht⟩)
      · exact Or.inl (Or.inl ha)
      · exact Or.inl (Or.inr ht)
      · exact Or.inr ⟨n, hn, ht⟩

theorem nodup_foldl_tags (notes : List Note) (acc : List String) (h : acc.Nodup) :
    (notes.foldl (fun acc n => n.tags.foldl addTag acc) acc).Nodup := by
  induction notes generalizing acc with
  | nil => exact h
  | cons m ms ih => exact ih _ (nodup_foldl_addTag m.tags acc h)

/-- C7: `allTags` is the duplicate-free union of the tags of all notes
(archived ones included): membership is equivalent to being a tag of some
note, the list has no duplicates, and hence every tag of every note appears
exactly once. -/
theorem allTags_spec (notes : List Note) :
    (∀ t, t ∈ allTags notes ↔ ∃ n ∈ notes, t ∈ n.tags) ∧
    (allTags notes).Nodup ∧
    (∀ n ∈ notes, ∀ t ∈ n.tags, List.count t (allTags notes) = 1) := by
  have hmem : ∀ t, t ∈ allTags notes ↔ ∃ n ∈ notes, t ∈ n.tags := by
    intro t
    unfold allTags
    rw [mem_foldl_tags]
    simp
  have hnodup : (allTags notes).Nodup := nodup_foldl_tags notes [] (List.nodup_nil)
  refine ⟨hmem, hnodup, ?_⟩
  intro n hn t ht
  exact List.count_eq_one_of_mem hnodup ((hmem t).2 ⟨n, hn, ht⟩)

theorem allTags_spec_witness :
    let n1 : Note := { id := "1", title := "a", content := "", category := "", color := "",
                       createdAt := 0, updatedAt := 0, image := "", isPinned := false,
                       isArchived := false, tags := ["x", "y"] }
    let n2 : Note := { n1 with id := "2", isArchived := true, tags := ["y", "z"] }
    ((∀ t, t ∈ allTags [n1, n2] ↔ ∃ n ∈ [n1, n2], t ∈ n.tags) ∧
     (allTags [n1, n2]).Nodup ∧
     (∀ n ∈ [n1, n2], ∀ t ∈ n.tags, List.count t (allTags [n1, n2]) = 1)) := by
  intro n1 n2
  exact allTags_spec [n1, n2]

/-! ### Lemmas about trimming and tag normalisation -/

theorem head?_dropWhile_false {α : Type} (p : α → Bool) (l : List α) (c : α)
    (h : (l.dropWhile p).head? = some c) : p c = false := by
  induction l with
  | nil => simp at h
  | cons a as ih =>
    by_cases ha : p a = true
    · rw [List.dropWhile_cons, if_pos ha] at h
      exact ih h
    · rw [List.dropWhile_cons, if_neg ha] at h
      rw [List.head?_cons, Option.some_inj] at h
      rw [← h]
      exact Bool.not_eq_true _ ▸ ha

theorem dropWhile_eq_self_of_head? {α : Type} (p : α → Bool) (l : List α)
    (h : ∀ c, l.head? = some c → p c = false) : l.dropWhile p = l := by
  cases l with
  | nil => rfl
  | cons a as =>
    rw [List.dropWhile_cons, if_neg]
    rw [h a rfl]
    simp

theorem getLast?_dropWhile {α : Type} (p : α → Bool) (l : List α)
    (h : l.dropWhile p ≠ []) : (l.dropWhile p).getLast? = l.getLast? := by
  induction l with
  | nil => simp at h
  | cons a as ih =>
    by_cases ha : p a = true
    · rw [List.dropWhile_cons, if_pos ha] at h ⊢
      cases has : as with
      | nil => rw [has] at h; simp at h
      | cons b bs =>
        rw [List.getLast?_cons_cons, ← has]
        exact ih (has ▸ h)
    · rw [List.dropWhile_cons, if_neg ha]

/-- The characters dropped from either end by `jsTrim` never reappear:
trimming is idempotent. -/
theorem jsTrim_idem (s : String) : jsTrim (jsTrim s) = jsTrim s := by
  show String.mk ((((((s.data.dropWhile isJsSpace).reverse.dropWhile
        isJsSpace).reverse).dropWhile isJsSpace).reverse.dropWhile isJsSpace).reverse) =
      String.mk (((s.data.dropWhile isJsSpace).reverse.dropWhile isJsSpace).reverse)
  congr 1
  set p := isJsSpace
  set d := s.data.dropWhile p with hd
  set u := d.reverse.dropWhile p with hu
  by_cases hu0 : u = []
  · rw [hu0]; rfl
  · have hu0' : d.reverse.dropWhile p ≠ [] := by rw [← hu]; exact hu0
    have step1 : u.reverse.dropWhile p = u.reverse := by
      apply dropWhile_eq_self_of_head? p u.reverse
      intro c hc
      rw [List.head?_reverse] at hc
      rw [hu, getLast?_dropWhile p d.reverse hu0', List.getLast?_reverse] at hc
      exact head?_dropWhile_false p s.data c hc
    have step2 : u.dropWhile p = u := by
      apply dropWhile_eq_self_of_head? p u
      intro c hc
      rw [hu] at hc
      exact head?_dropWhile_false p d.reverse c hc
    rw [step1, List.reverse_reverse, step2]

theorem normalizeTags_eq (tags : List String) :
    normalizeTags tags = (tags.map jsTrim).filter (fun t => t ≠ "") := by
  unfold normalizeTags
  rw [List.filter_map]
  rfl

/-- C10: `handleTagChange` stores only normalised tags: the stored list is the
input with each element trimmed and the elements trimming to the empty string
removed, in order; hence every stored tag is trimmed (a `jsTrim` fixed point)
and non-empty.  This applies both to the note with the given id and to the
new-note draft. -/
theorem handleTagChange_normalized_spec (st : AppState) (tags : List String) (id : String) :
    normalizeTags tags = (tags.map jsTrim).filter (fun t => t ≠ "") ∧
    (∀ t ∈ normalizeTags tags, jsTrim t = t ∧ t ≠ "") ∧
    (handleTagChange st tags none).newNote.tags = normalizeTags tags ∧
    (∀ m ∈ (handleTagChange st tags (some id)).notes, m.id = id → m.tags = normalizeTags tags) := by
  refine ⟨normalizeTags_eq tags, ?_, rfl, ?_⟩
  · intro t ht
    rw [normalizeTags_eq, List.mem_filter] at ht
    obtain ⟨hmem, hne⟩ := ht
    rcases List.mem_map.1 hmem with ⟨s, _, rfl⟩
    exact ⟨jsTrim_idem s, by simpa using hne⟩
  · intro m hm hid
    cases hf : st.notes.find? (fun n => n.id == id) with
    | none =>
      have hnotes : (handleTagChange st tags (some id)).notes = st.notes := by
        simp only [handleTagChange, hf]
      rw [hnotes] at hm
      have hne := List.find?_eq_none.1 hf m hm
      simp [hid] at hne
    | some n =>
      have hnotes : (handleTagChange st tags (some id)).notes =
          st.notes.map (fun m0 =>
            if m0.id = id then { n with tags := normalizeTags tags } else m0) := by
        simp only [handleTagChange, hf]
      rw [hnotes] at hm
      rcases List.mem_map.1 hm with ⟨m0, hm0, rfl⟩
      by_cases h0 : m0.id = id
      · simp only [if_pos h0]
      · rw [if_neg h0] at hid
        exact absurd hid h0

theorem handleTagChange_normalized_spec_witness :
    let st : AppState :=
      { notes := [], categories := [], dbNotes := [], dbCategories := [],
        newNote := { title := "", content := "", category := "", color := "", image := "", tags := [] },
        editingNote := none, isAddingNote := false, toasts := [] }
    (normalizeTags [" a ", " ", "b"] = (([" a ", " ", "b"].map jsTrim)).filter (fun t => t ≠ "") ∧
     (∀ t ∈ normalizeTags [" a ", " ", "b"], jsTrim t = t ∧ t ≠ "") ∧
     (handleTagChange st [" a ", " ", "b"] none).newNote.tags = normalizeTags [" a ", " ", "b"] ∧
     (∀ m ∈ (handleTagChange st [" a ", " ", "b"] (some "1")).notes,
        m.id = "1" → m.tags = normalizeTags [" a ", " ", "b"])) := by
  intro st
  exact handleTagChange_normalized_spec st [" a ", " ", "b"] "1"

/-! ### deleteCategory -/

theorem forall₂_map_self {α : Type} (R : α → α → Prop) (g : α → α) (l : List α)
    (h : ∀ x ∈ l, R x (g x)) : List.Forall₂ R l (l.map g) := by
  induction l with
  | nil => exact List.Forall₂.nil
  | cons a as ih =>
    exact List.Forall₂.cons (h a (by simp)) (ih (fun x hx => h x (by simp [hx])))

/-- C8: `deleteCategory name` removes exactly the category of that name from
the categories list and from the category store, rewrites every note of that
category to the category `'Uncategorized'` while keeping all its other fields,
leaves every note of a different category entirely unchanged, and does not add
a replacement category `'Uncategorized'` to the categories list. -/
theorem deleteCategory_spec (st : AppState) (categoryName : String) :
    (∀ c, c ∈ (deleteCategory st categoryName).categories ↔
      (c ∈ st.categories ∧ c.name ≠ categoryName)) ∧
    (∀ c, c ∈ (deleteCategory st categoryName).dbCategories ↔
      (c ∈ st.dbCategories ∧ c.name ≠ categoryName)) ∧
    List.Forall₂ (fun old new =>
      (old.category = categoryName → new = { old with category := "Uncategorized" }) ∧
      (old.category ≠ categoryName → new = old))
      st.notes (deleteCategory st categoryName).notes ∧
    ("Uncategorized" ∉ st.categories.map (fun c => c.name) →
      "Uncategorized" ∉ (deleteCategory st categoryName).categories.map (fun c => c.name)) := by
  have hcat : (deleteCategory st categoryName).categories =
      st.categories.filter (fun cat => cat.name ≠ categoryName) := rfl
  have hdb : (deleteCategory st categoryName).dbCategories =
      st.dbCategories.filter (fun cat => cat.name ≠ categoryName) := rfl
  have hnotes : (deleteCategory st categoryName).notes =
      st.notes.map (fun note =>
        if note.category = categoryName then { note with category := "Uncategorized" }
        else note) := rfl
  refine ⟨?_, ?_, ?_, ?_⟩
  · intro c; rw [hcat, List.mem_filter]; simp
  · intro c; rw [hdb, List.mem_filter]; simp
  · rw [hnotes]
    apply forall₂_map_self
    intro x _
    constructor
    · intro hx; rw [if_pos hx]
    · intro hx; rw [if_neg hx]
  · intro hout hmem
    rw [hcat] at hmem
    rcases List.mem_map.1 hmem with ⟨c, hc, hcn⟩
    exact hout (List.mem_map.2 ⟨c, (List.mem_filter.1 hc).1, hcn⟩)

theorem deleteCategory_spec_witness :
    let cW : Category := { name := "Work", color := "#FF5733" }
    let cP : Category := { name := "Personal", color := "#33FF57" }
    let nx : Note := { id := "1", title := "t", content := "c", category := "Work", color := "#FF5733",
                       createdAt := 0, updatedAt := 0, image := "", isPinned := false,
                       isArchived := false, tags := [] }
    let ny : Note := { nx with id := "2", category := "Personal" }
    let st : AppState :=
      { notes := [nx, ny], categories := [cW, cP], dbNotes := [nx, ny], dbCategories := [cW, cP],
        newNote := { title := "", content := "", category := "", color := "", image := "", tags := [] },
        editingNote := none, isAddingNote := false, toasts := [] }
    ((∀ c, c ∈ (deleteCategory st "Work").categories ↔ (c ∈ st.categories ∧ c.name ≠ "Work")) ∧
     (∀ c, c ∈ (deleteCategory st "Work").dbCategories ↔ (c ∈ st.dbCategories ∧ c.name ≠ "Work")) ∧
     List.Forall₂ (fun old new =>
       (old.category = "Work" → new = { old with category := "Uncategorized" }) ∧
       (old.category ≠ "Work" → new = old)) st.notes (deleteCategory st "Work").notes ∧
     ("Uncategorized" ∉ st.categories.map (fun c => c.name) →
       "Uncategorized" ∉ (deleteCategory st "Work").categories.map (fun c => c.name))) := by
  intro cW cP nx ny st
  exact deleteCategory_spec st "Work"

/-! ### Export / import round trip -/

theorem reviveNote_id (n : Note) : reviveNote n = n := rfl

theorem saveToIndexedDB_self {α : Type} (key : α → String) (s : List α) (v : α)
    (hN : (s.map key).Nodup) (hv : v ∈ s) : saveToIndexedDB key s v = s := by
  unfold saveToIndexedDB
  have hany : s.any (fun m => key m == key v) = true :=
    List.any_eq_true.2 ⟨v, hv, by simp⟩
  rw [if_pos hany]
  have hfix : ∀ m ∈ s, (if key m = key v then v else m) = m := by
    intro m hm
    by_cases hk : key m = key v
    · rw [if_pos hk]
      exact (List.inj_on_of_nodup_map hN hm hv hk).symm
    · rw [if_neg hk]
  rw [List.map_congr_left hfix]
  simp

theorem foldl_saveToIndexedDB_self {α : Type} (key : α → String) (s : List α) (l : List α)
    (hN : (s.map key).Nodup) (hl : ∀ v ∈ l, v ∈ s) :
    l.foldl (fun acc v => saveToIndexedDB key acc v) s = s := by
  induction l with
  | nil => rfl
  | cons a as ih =>
    rw [List.foldl_cons, saveToIndexedDB_self key s a hN (hl a (by simp))]
    exact ih (fun v hv => hl v (by simp [hv]))

/-- C4: importing the file produced by `exportNotes` is a no-op: both object
stores are unchanged (record for record), and the notes/categories state is
replaced by exactly the stored notes (dates revived) and stored categories. -/
theorem export_import_roundtrip (st : AppState)
    (hN : (st.dbNotes.map (fun n => n.id)).Nodup)
    (hC : (st.dbCategories.map (fun c => c.name)).Nodup) :
    (importNotes st (exportNotes st)).dbNotes = st.dbNotes ∧
    (importNotes st (exportNotes st)).dbCategories = st.dbCategories ∧
    (importNotes st (exportNotes st)).notes = st.dbNotes ∧
    (importNotes st (exportNotes st)).categories = st.dbCategories := by
  have hrevall : reviveNote = id := funext reviveNote_id
  have hdbN : st.dbNotes.foldl
      (fun acc n => saveToIndexedDB (fun m => m.id) acc (reviveNote n)) st.dbNotes = st.dbNotes := by
    simp only [reviveNote_id]
    exact foldl_saveToIndexedDB_self (fun m => m.id) st.dbNotes st.dbNotes hN (fun v hv => hv)
  have hdbC : st.dbCategories.foldl
      (fun acc c => saveToIndexedDB (fun c2 => c2.name) acc c) st.dbCategories = st.dbCategories :=
    foldl_saveToIndexedDB_self (fun c2 => c2.name) st.dbCategories st.dbCategories hC (fun v hv => hv)
  refine ⟨hdbN, hdbC, ?_, hdbC⟩
  show (st.dbNotes.foldl
      (fun acc n => saveToIndexedDB (fun m => m.id) acc (reviveNote n)) st.dbNotes).map reviveNote
    = st.dbNotes
  rw [hdbN, hrevall, List.map_id]

theorem export_import_roundtrip_witness :
    let n1 : Note := { id := "1", title := "a", content := "x", category := "Work", color := "#f00",
                       createdAt := 3, updatedAt := 5, image := "", isPinned := true,
                       isArchived := false, tags := ["t"] }
    let n2 : Note := { n1 with id := "2", title := "b", isPinned := false, isArchived := true }
    let cW : Category := { name := "Work", color := "#f00" }
    let st : AppState :=
      { notes := [n1, n2], categories := [cW], dbNotes := [n1, n2], dbCategories := [cW],
        newNote := { title := "", content := "", category := "", color := "", image := "", tags := [] },
        editingNote := none, isAddingNote := false, toasts := [] }
    ((importNotes st (exportNotes st)).dbNotes = st.dbNotes ∧
     (importNotes st (exportNotes st)).dbCategories = st.dbCategories ∧
     (importNotes st (exportNotes st)).notes = st.dbNotes ∧
     (importNotes st (exportNotes st)).categories = st.dbCategories) := by
  intro n1 n2 cW st
  exact export_import_roundtrip st (by decide) (by decide)

/-! ### addNote -/

/-- C5 counterexample: with a category whose colour is the empty string (such
categories can enter via `importNotes`), `addNote` gives the new note the
fallback colour `'#CCCCCC'` although a category of the draft's name exists:
`find(...)?.color || '#CCCCCC'` also replaces an empty (falsy) colour string,
so "the color of the matching category" is not stored. -/
theorem addNote_color_counterexample :
    let catX : Category := { name := "X", color := "" }
    let st : AppState :=
      { notes := [], categories := [catX], dbNotes := [], dbCategories := [catX],
        newNote := { title := "t", content := "c", category := "X", color := "", image := "", tags := [] },
        editingNote := none, isAddingNote := true, toasts := [] }
    (st.newNote.title ≠ "" ∧ st.newNote.content ≠ "" ∧ st.newNote.category ≠ "" ∧
     st.categories.find? (fun cat => cat.name == st.newNote.category) = some catX ∧
     (addNote st 5).notes.map (fun n => n.color) = ["#CCCCCC"] ∧
     catX.color ≠ "#CCCCCC") := by
  intro catX st
  refine ⟨by decide, by decide, by decide, by decide, by decide, by decide⟩

/-- C5 amended: `addNote` adds a note iff the draft's title, content and
category are all non-empty.  When some required field is empty it appends a
single error toast and changes nothing else (in particular the notes list and
the store are unchanged); otherwise it appends exactly one new note with
`isPinned = isArchived = false`, `createdAt = updatedAt = now`, and the colour
of the matching category — except that `'#CCCCCC'` is used both when no
category of that name exists and when the matching category's colour is the
empty string. -/
theorem addNote_spec_amended (st : AppState) (now : Int) :
    (st.newNote.title = "" ∨ st.newNote.content = "" ∨ st.newNote.category = "" →
      addNote st now = { st with toasts := st.toasts ++ ["Please fill in all required fields 🙏"] }) ∧
    (st.newNote.title ≠ "" → st.newNote.content ≠ "" → st.newNote.category ≠ "" →
      ∃ newN : Note,
        (addNote st now).notes = st.notes ++ [newN] ∧
        (addNote st now).dbNotes = saveToIndexedDB (fun m => m.id) st.dbNotes newN ∧
        (addNote st now).toasts = st.toasts ++ ["Note added successfully! 🎉"] ∧
        newN.isPinned = false ∧ newN.isArchived = false ∧
        newN.createdAt = now ∧ newN.updatedAt = now ∧
        newN.title = st.newNote.title ∧ newN.content = st.newNote.content ∧
        newN.category = st.newNote.category ∧ newN.tags = st.newNote.tags ∧
        ((st.categories.find? (fun cat => cat.name == st.newNote.category) = none →
          newN.color = "#CCCCCC") ∧
         (∀ cat, st.categories.find? (fun cat2 => cat2.name == st.newNote.category) = some cat →
          newN.color = (if cat.color = "" then "#CCCCCC" else cat.color)))) := by
  constructor
  · intro h
    have hcond : ¬(st.newNote.title ≠ "" ∧ st.newNote.content ≠ "" ∧ st.newNote.category ≠ "") := by
      rcases h with h | h | h <;> simp [h]
    unfold addNote
    rw [if_neg hcond]
  · intro h1 h2 h3
    have hcond : st.newNote.title ≠ "" ∧ st.newNote.content ≠ "" ∧ st.newNote.category ≠ "" :=
      ⟨h1, h2, h3⟩
    have hnotes : (addNote st now).notes = st.notes ++ [mkNewNote st now] := by
      unfold addNote; rw [if_pos hcond]
    have hdb : (addNote st now).dbNotes =
        saveToIndexedDB (fun m => m.id) st.dbNotes (mkNewNote st now) := by
      unfold addNote; rw [if_pos hcond]
    have htoast : (addNote st now).toasts = st.toasts ++ ["Note added successfully! 🎉"] := by
      unfold addNote; rw [if_pos hcond]
    refine ⟨mkNewNote st now, hnotes, hdb, htoast, rfl, rfl, rfl, rfl, rfl, rfl, rfl, rfl,
      ?_, ?_⟩
    · intro hf
      simp only [mkNewNote, hf]
    · intro cat hf
      simp only [mkNewNote, hf]

theorem addNote_spec_amended_witness :
    let catW : Category := { name := "Work", color := "#FF5733" }
    let stF : AppState :=
      { notes := [], categories := [catW], dbNotes := [], dbCategories := [catW],
        newNote := { title := "", content := "c", category := "Work", color := "", image := "", tags := [] },
        editingNote := none, isAddingNote := true, toasts := [] }
    let stO : AppState := { stF with
      newNote := { title := "t", content := "c", category := "Work", color := "", image := "", tags := ["x"] } }
    ((addNote stF 7 = { stF with toasts := stF.toasts ++ ["Please fill in all required fields 🙏"] }) ∧
     ∃ newN : Note,
        (addNote stO 7).notes = stO.notes ++ [newN] ∧
        (addNote stO 7).dbNotes = saveToIndexedDB (fun m => m.id) stO.dbNotes newN ∧
        (addNote stO 7).toasts = stO.toasts ++ ["Note added successfully! 🎉"] ∧
        newN.isPinned = false ∧ newN.isArchived = false ∧
        newN.createdAt = 7 ∧ newN.updatedAt = 7 ∧
        newN.title = stO.newNote.title ∧ newN.content = stO.newNote.content ∧
        newN.category = stO.newNote.category ∧ newN.tags = stO.newNote.tags ∧
        ((stO.categories.find? (fun cat => cat.name == stO.newNote.category) = none →
          newN.color = "#CCCCCC") ∧
         (∀ cat, stO.categories.find? (fun cat2 => cat2.name == stO.newNote.category) = some cat →
          newN.color = (if cat.color = "" then "#CCCCCC" else cat.color)))) := by
  intro catW stF stO
  exact ⟨(addNote_spec_amended stF 7).1 (Or.inl rfl),
         (addNote_spec_amended stO 7).2 (by decide) (by decide) (by decide)⟩

/-! ### Frame effects of the per-note operations -/

theorem map_replace_found (notes : List Note) (id : String) (n : Note) (g : Note → Note)
    (hN : (notes.map (fun m => m.id)).Nodup)
    (hf : notes.find? (fun m => m.id == id) = some n) :
    notes.map (fun m => if m.id = id then g n else m) =
    notes.map (fun m => if m.id = id then g m else m) := by
  apply List.map_congr_left
  intro m hm
  by_cases hid : m.id = id
  · rw [if_pos hid, if_pos hid]
    have hn : n ∈ notes := List.mem_of_find?_eq_some hf
    have hnid : n.id = id := by simpa using List.find?_some hf
    have hmn : m = n := List.inj_on_of_nodup_map hN hm hn (by rw [hid, hnid])
    rw [hmn]
  · rw [if_neg hid, if_neg hid]

theorem map_no_match (notes : List Note) (id : String) (g : Note → Note)
    (hf : notes.find? (fun m => m.id == id) = none) :
    notes.map (fun m => if m.id = id then g m else m) = notes := by
  have h2 : ∀ m ∈ notes, (if m.id = id then g m else m) = m := by
    intro m hm
    have := List.find?_eq_none.1 hf m hm
    rw [if_neg (by simpa using this)]
  rw [List.map_congr_left h2]
  simp

/-- C9: `togglePinNote`, `toggleArchiveNote` and `handleTagChange` change only
the `isPinned` flag, `isArchived` flag, resp. `tags` list of the note with the
given id — every other field of that note (in particular `createdAt` and
`updatedAt`) and every other note are untouched — while `updateNote` is the
operation that stamps `updatedAt` with the current time on the note it
replaces (note ids are assumed distinct, as the store's key invariant
guarantees). -/
theorem frame_effects_spec (st : AppState) (id : String) (tags : List String) (now : Int)
    (hN : (st.notes.map (fun m => m.id)).Nodup) :
    ((togglePinNote st id).notes = st.notes ∨
     (togglePinNote st id).notes =
       st.notes.map (fun m => if m.id = id then { m with isPinned := !m.isPinned } else m)) ∧
    ((toggleArchiveNote st id).notes =
      st.notes.map (fun m => if m.id = id then { m with isArchived := !m.isArchived } else m)) ∧
    ((handleTagChange st tags (some id)).notes =
      st.notes.map (fun m => if m.id = id then { m with tags := normalizeTags tags } else m)) ∧
    ((updateNote st now).notes =
      (match st.editingNote with
       | none => st.notes
       | some e => st.notes.map (fun m => if m.id = e.id then { e with updatedAt := now } else m))) := by
  refine ⟨?_, ?_, ?_, ?_⟩
  · cases hf : st.notes.find? (fun m => m.id == id) with
    | none => exact Or.inl (by simp only [togglePinNote, hf])
    | some n =>
      by_cases hblock : n.isPinned = false ∧ 3 ≤ (st.notes.filter (fun m => m.isPinned)).length
      · exact Or.inl (by simp only [togglePinNote, hf, if_pos hblock])
      · refine Or.inr ?_
        have hstep : (togglePinNote st id).notes =
            st.notes.map (fun m => if m.id = id then { n with isPinned := !n.isPinned } else m) := by
          simp only [togglePinNote, hf, if_neg hblock]
        rw [hstep]
        exact map_replace_found st.notes id n (fun m => { m with isPinned := !m.isPinned }) hN hf
  · cases hf : st.notes.find? (fun m => m.id == id) with
    | none =>
      have hstep : (toggleArchiveNote st id).notes = st.notes := by
        simp only [toggleArchiveNote, hf]
      rw [hstep, map_no_match st.notes id (fun m => { m with isArchived := !m.isArchived }) hf]
    | some n =>
      have hstep : (toggleArchiveNote st id).notes =
          st.notes.map (fun m => if m.id = id then { n with isArchived := !n.isArchived } else m) := by
        simp only [toggleArchiveNote, hf]
      rw [hstep]
      exact map_replace_found st.notes id n (fun m => { m with isArchived := !m.isArchived }) hN hf
  · cases hf : st.notes.find? (fun m => m.id == id) with
    | none =>
      have hstep : (handleTagChange st tags (some id)).notes = st.notes := by
        simp only [handleTagChange, hf]
      rw [hstep, map_no_match st.notes id (fun m => { m with tags := normalizeTags tags }) hf]
    | some n =>
      have hstep : (handleTagChange st tags (some id)).notes =
          st.notes.map (fun m => if m.id = id then { n with tags := normalizeTags tags } else m) := by
        simp only [handleTagChange, hf]
      rw [hstep]
      exact map_replace_found st.notes id n (fun m => { m with tags := normalizeTags tags }) hN hf
  · cases he : st.editingNote with
    | none => simp only [updateNote, he]
    | some e => simp only [updateNote, he]

theorem frame_effects_spec_witness :
    let nx : Note := { id := "1", title := "t", content := "c", category := "Work", color := "#f00",
                       createdAt := 2, updatedAt := 4, image := "", isPinned := false,
                       isArchived := false, tags := ["a"] }
    let ny : Note := { nx with id := "2" }
    let st : AppState :=
      { notes := [nx, ny], categories := [], dbNotes := [nx, ny], dbCategories := [],
        newNote := { title := "", content := "", category := "", color := "", image := "", tags := [] },
        editingNote := some { nx with title := "t2" }, isAddingNote := false, toasts := [] }
    (((togglePinNote st "1").notes = st.notes ∨
      (togglePinNote st "1").notes =
        st.notes.map (fun m => if m.id = "1" then { m with isPinned := !m.isPinned } else m)) ∧
     ((toggleArchiveNote st "1").notes =
       st.notes.map (fun m => if m.id = "1" then { m with isArchived := !m.isArchived } else m)) ∧
     ((handleTagChange st [" b "] (some "1")).notes =
       st.notes.map (fun m => if m.id = "1" then { m with tags := normalizeTags [" b "] } else m)) ∧
     ((updateNote st 9).notes =
       (match st.editingNote with
        | none => st.notes
        | some e => st.notes.map (fun m => if m.id = e.id then { e with updatedAt := 9 } else m)))) := by
  intro nx ny st
  exact frame_effects_spec st "1" [" b "] 9 (by decide)

/-! ### The pin-count invariant -/

theorem pinnedCount_eq_countP (l : List Note) :
    pinnedCount l = l.countP (fun n => n.isPinned) := by
  unfold pinnedCount
  rw [List.countP_eq_length_filter]

theorem pinnedCount_map_of_preserved (l : List Note) (f : Note → Note)
    (h : ∀ m ∈ l, (f m).isPinned = m.isPinned) : pinnedCount (l.map f) = pinnedCount l := by
  rw [pinnedCount_eq_countP, pinnedCount_eq_countP, List.countP_map]
  apply List.countP_congr
  intro m hm
  show ((f m).isPinned = true) ↔ (m.isPinned = true)
  rw [h m hm]

theorem pinnedCount_map_replace_le (l : List Note) (id : String) (u : Note)
    (hu : u.isPinned = false) :
    pinnedCount (l.map (fun m => if m.id = id then u else m)) ≤ pinnedCount l := by
  rw [pinnedCount_eq_countP, pinnedCount_eq_countP, List.countP_map]
  apply List.countP_mono_left
  intro m _ hpin
  show m.isPinned = true
  by_cases hid : m.id = id
  · exfalso
    have : (if m.id = id then u else m).isPinned = true := hpin
    rw [if_pos hid, hu] at this
    exact absurd this (by simp)
  · have : (if m.id = id then u else m).isPinned = true := hpin
    rw [if_neg hid] at this
    exact this

theorem pinnedCount_map_replace_succ_le (l : List Note) (id : String) (u : Note)
    (hN : (l.map (fun m => m.id)).Nodup) :
    pinnedCount (l.map (fun m => if m.id = id then u else m)) ≤ pinnedCount l + 1 := by
  induction l with
  | nil => simp [pinnedCount]
  | cons a as ih =>
    rw [List.map_cons, List.nodup_cons] at hN
    obtain ⟨hout, hN2⟩ := hN
    rw [List.map_cons, pinnedCount_eq_countP, pinnedCount_eq_countP,
      List.countP_cons, List.countP_cons]
    by_cases ha : a.id = id
    · have htail : as.map (fun m => if m.id = id then u else m) = as := by
        apply List.map_congr_left (g := fun m => m) ?_ |>.trans (by simp)
        intro m hm
        have hmid : m.id ≠ id := by
          intro hmid
          exact hout (List.mem_map.2 ⟨m, hm, by rw [hmid, ha]⟩)
        rw [if_neg hmid]
      rw [if_pos ha, htail]
      have h1 : (if u.isPinned = true then 1 else 0) ≤ 1 := by split <;> omega
      have h2 : (0 : Nat) ≤ (if a.isPinned = true then 1 else 0) := by omega
      omega
    · rw [if_neg ha]
      have hih := ih hN2
      simp only [pinnedCount_eq_countP] at hih
      omega

theorem pinnedCount_append_single (l : List Note) (n : Note) :
    pinnedCount (l ++ [n]) = pinnedCount l + (if n.isPinned = true then 1 else 0) := by
  rw [pinnedCount_eq_countP, pinnedCount_eq_countP, List.countP_append, List.countP_cons]
  simp [List.countP_nil]

theorem pinnedCount_filter_le (l : List Note) (q : Note → Bool) :
    pinnedCount (l.filter q) ≤ pinnedCount l := by
  rw [pinnedCount_eq_countP, pinnedCount_eq_countP]
  exact (List.filter_sublist l).countP_le _

/-- C1 counterexample: `importNotes` does not enforce the pin limit.  Starting
from the empty state (0 ≤ 3 pinned notes), importing a well-formed file that
contains four pinned notes leaves four notes pinned. -/
theorem importNotes_pin_limit_counterexample :
    let p1 : Note := { id := "1", title := "a", content := "x", category := "W", color := "#f00",
                       createdAt := 0, updatedAt := 0, image := "", isPinned := true,
                       isArchived := false, tags := [] }
    let p2 : Note := { p1 with id := "2" }
    let p3 : Note := { p1 with id := "3" }
    let p4 : Note := { p1 with id := "4" }
    let st : AppState :=
      { notes := [], categories := [], dbNotes := [], dbCategories := [],
        newNote := { title := "", content := "", category := "", color := "", image := "", tags := [] },
        editingNote := none, isAddingNote := false, toasts := [] }
    let data : ExportData := { notes := [p1, p2, p3, p4], categories := [] }
    (pinnedCount st.notes ≤ 3 ∧ ¬ pinnedCount (importNotes st data).notes ≤ 3) := by
  intro p1 p2 p3 p4 st data
  exact ⟨by decide, by decide⟩

/-- C1 amended: `addNote`, `updateNote`, `deleteNote`, `togglePinNote`,
`toggleArchiveNote` and `handleTagChange` preserve the pin-count constraint
(at most 3 pinned notes), given the reachable-state invariants that note ids
are distinct and that the editing draft's pin flag agrees with the stored
note's (the edit dialog never changes `isPinned`); and `togglePinNote` on an
unpinned note while 3 or more notes are pinned leaves the notes state and the
note store unchanged.  `importNotes` is excluded: it does not enforce the
limit (see the counterexample). -/
theorem pin_limit_preserved_amended (st : AppState) (now : Int) (id : String)
    (tags : List String) (n : Note)
    (hpin : pinnedCount st.notes ≤ 3)
    (hN : (st.notes.map (fun m => m.id)).Nodup)
    (hedit : ∀ e, st.editingNote = some e → ∀ m ∈ st.notes, m.id = e.id →
      e.isPinned = m.isPinned) :
    pinnedCount (addNote st now).notes ≤ 3 ∧
    pinnedCount (updateNote st now).notes ≤ 3 ∧
    pinnedCount (deleteNote st id).notes ≤ 3 ∧
    pinnedCount (togglePinNote st id).notes ≤ 3 ∧
    pinnedCount (toggleArchiveNote st id).notes ≤ 3 ∧
    pinnedCount (handleTagChange st tags (some id)).notes ≤ 3 ∧
    pinnedCount (handleTagChange st tags none).notes ≤ 3 ∧
    (st.notes.find? (fun m => m.id == id) = some n → n.isPinned = false →
      3 ≤ pinnedCount st.notes →
      (togglePinNote st id).notes = st.notes ∧ (togglePinNote st id).dbNotes = st.dbNotes) := by
  refine ⟨?_, ?_, ?_, ?_, ?_, ?_, ?_, ?_⟩
  · by_cases hcond : st.newNote.title ≠ "" ∧ st.newNote.content ≠ "" ∧ st.newNote.category ≠ ""
    · have hnotes : (addNote st now).notes = st.notes ++ [mkNewNote st now] := by
        unfold addNote; rw [if_pos hcond]
      rw [hnotes, pinnedCount_append_single]
      have hu : (mkNewNote st now).isPinned = false := rfl
      rw [hu]
      simpa using hpin
    · have hnotes : (addNote st now).notes = st.notes := by
        unfold addNote; rw [if_neg hcond]
      rw [hnotes]; exact hpin
  · cases he : st.editingNote with
    | none =>
      have hnotes : (updateNote st now).notes = st.notes := by simp only [updateNote, he]
      rw [hnotes]; exact hpin
    | some e =>
      have hnotes : (updateNote st now).notes =
          st.notes.map (fun m => if m.id = e.id then { e with updatedAt := now } else m) := by
        simp only [updateNote, he]
      have hpt : ∀ m ∈ st.notes,
          ((fun m => if m.id = e.id then { e with updatedAt := now } else m) m).isPinned
            = m.isPinned := by
        intro m hm
        by_cases hmid : m.id = e.id
        · show (if m.id = e.id then ({ e with updatedAt := now } : Note) else m).isPinned = m.isPinned
          rw [if_pos hmid]
          exact hedit e he m hm hmid
        · show (if m.id = e.id then ({ e with updatedAt := now } : Note) else m).isPinned = m.isPinned
          rw [if_neg hmid]
      rw [hnotes, pinnedCount_map_of_preserved st.notes _ hpt]
      exact hpin
  · have hnotes : (deleteNote st id).notes = st.notes.filter (fun m => m.id ≠ id) := rfl
    rw [hnotes]
    exact le_trans (pinnedCount_filter_le st.notes _) hpin
  · cases hf : st.notes.find? (fun m => m.id == id) with
    | none =>
      have hnotes : (togglePinNote st id).notes = st.notes := by simp only [togglePinNote, hf]
      rw [hnotes]; exact hpin
    | some n0 =>
      by_cases hblock : n0.isPinned = false ∧ 3 ≤ (st.notes.filter (fun m => m.isPinned)).length
      · have hnotes : (togglePinNote st id).notes = st.notes := by
          simp only [togglePinNote, hf, if_pos hblock]
        rw [hnotes]; exact hpin
      · have hnotes : (togglePinNote st id).notes =
            st.notes.map (fun m => if m.id = id then { n0 with isPinned := !n0.isPinned } else m) := by
          simp only [togglePinNote, hf, if_neg hblock]
        rw [hnotes]
        rcases Bool.eq_false_or_eq_true n0.isPinned with hp | hp
        · have hu : ({ n0 with isPinned := !n0.isPinned } : Note).isPinned = false := by
            show (!n0.isPinned) = false
            rw [hp]
            rfl
          exact le_trans (pinnedCount_map_replace_le st.notes id _ hu) hpin
        · have hlt : ¬ 3 ≤ pinnedCount st.notes := fun hge => hblock ⟨hp, hge⟩
          have hle := pinnedCount_map_replace_succ_le st.notes id
            { n0 with isPinned := !n0.isPinned } hN
          omega
  · cases hf : st.notes.find? (fun m => m.id == id) with
    | none =>
      have hnotes : (toggleArchiveNote st id).notes = st.notes := by
        simp only [toggleArchiveNote, hf]
      rw [hnotes]; exact hpin
    | some n0 =>
      have hnotes : (toggleArchiveNote st id).notes =
          st.notes.map (fun m => if m.id = id then { n0 with isArchived := !n0.isArchived } else m) := by
        simp only [toggleArchiveNote, hf]
      have hpt : ∀ m ∈ st.notes,
          ((fun m => if m.id = id then { m with isArchived := !m.isArchived } else m) m).isPinned
            = m.isPinned := by
        intro m _
        by_cases hmid : m.id = id
        · show (if m.id = id then ({ m with isArchived := !m.isArchived } : Note) else m).isPinned
            = m.isPinned
          rw [if_pos hmid]
        · show (if m.id = id then ({ m with isArchived := !m.isArchived } : Note) else m).isPinned
            = m.isPinned
          rw [if_neg hmid]
      rw [hnotes,
        map_replace_found st.notes id n0 (fun m => { m with isArchived := !m.isArchived }) hN hf,
        pinnedCount_map_of_preserved st.notes _ hpt]
      exact hpin
  · cases hf : st.notes.find? (fun m => m.id == id) with
    | none =>
      have hnotes : (handleTagChange st tags (some id)).notes = st.notes := by
        simp only [handleTagChange, hf]
      rw [hnotes]; exact hpin
    | some n0 =>
      have hnotes : (handleTagChange st tags (some id)).notes =
          st.notes.map (fun m => if m.id = id then { n0 with tags := normalizeTags tags } else m) := by
        simp only [handleTagChange, hf]
      have hpt : ∀ m ∈ st.notes,
          ((fun m => if m.id = id then { m with tags := normalizeTags tags } else m) m).isPinned
            = m.isPinned := by
        intro m _
        by_cases hmid : m.id = id
        · show (if m.id = id then ({ m with tags := normalizeTags tags } : Note) else m).isPinned
            = m.isPinned
          rw [if_pos hmid]
        · show (if m.id = id then ({ m with tags := normalizeTags tags } : Note) else m).isPinned
            = m.isPinned
          rw [if_neg hmid]
      rw [hnotes,
        map_replace_found st.notes id n0 (fun m => { m with tags := normalizeTags tags }) hN hf,
        pinnedCount_map_of_preserved st.notes _ hpt]
      exact hpin
  · have hnotes : (handleTagChange st tags none).notes = st.notes := rfl
    rw [hnotes]; exact hpin
  · intro hfind hnp hge
    have hge2 : 3 ≤ (st.notes.filter (fun m => m.isPinned)).length := hge
    refine ⟨?_, ?_⟩ <;>
      simp only [togglePinNote, hfind, if_pos (And.intro hnp hge2)]

theorem pin_limit_preserved_amended_witness :
    let p1 : Note := { id := "1", title := "a", content := "x", category := "W", color := "#f00",
                       createdAt := 0, updatedAt := 0, image := "", isPinned := true,
                       isArchived := false, tags := ["t"] }
    let p2 : Note := { p1 with id := "2" }
    let p3 : Note := { p1 with id := "3" }
    let p4 : Note := { p1 with id := "4", isPinned := false }
    let e1 : Note := { p1 with title := "edited" }
    let st : AppState :=
      { notes := [p1, p2, p3, p4], categories := [], dbNotes := [p1, p2, p3, p4],
        dbCategories := [],
        newNote := { title := "t", content := "c", category := "W", color := "", image := "", tags := [] },
        editingNote := some e1, isAddingNote := false, toasts := [] }
    (pinnedCount (addNote st 7).notes ≤ 3 ∧
     pinnedCount (updateNote st 7).notes ≤ 3 ∧
     pinnedCount (deleteNote st "4").notes ≤ 3 ∧
     pinnedCount (togglePinNote st "4").notes ≤ 3 ∧
     pinnedCount (toggleArchiveNote st "4").notes ≤ 3 ∧
     pinnedCount (handleTagChange st ["x"] (some "4")).notes ≤ 3 ∧
     pinnedCount (handleTagChange st ["x"] none).notes ≤ 3 ∧
     (st.notes.find? (fun m => m.id == "4") = some p4 → p4.isPinned = false →
       3 ≤ pinnedCount st.notes →
       (togglePinNote st "4").notes = st.notes ∧ (togglePinNote st "4").dbNotes = st.dbNotes)) := by
  intro p1 p2 p3 p4 e1 st
  refine pin_limit_preserved_amended st 7 "4" ["x"] p4 (by decide) (by decide) ?_
  intro e he
  have hee : e = e1 := by
    injection he with h
    exact h.symm
  subst hee
  decide
